import Mathlib

set_option autoImplicit false

/-!
Verification development for the text chunking and parent child ingestion
code of this repository.

The first part embeds the function sentence_aware_splitter of
text_splitters.py.  The sentence segmenter and the word tokenizer
(nltk sent_tokenize and word_tokenize) are external capabilities, so the
splitter is embedded as a function over the segmenter output: a list of
pairs of sentence text and token count.  The loop control of the source
only reads the token counts, and every chunk it builds is a contiguous
slice of the sentence list, so the loops are embedded over the list of
token counts and produce index spans; the exported function joins the
sentence texts of each span with a single space, exactly as line 47 of
the source does.

The second part embeds the class ParentChildIngester of
parent_child_ingester.py over an explicit state.  The SHA-256 digest,
the embedding model and the chroma vector index are external
collaborators; the digest and the embedding model are taken as function
parameters, and the vector index is modelled as an id keyed list with
upsert-by-id semantics, which is the contract the spec assigns to the
external index.
-/

/-- Inner greedy loop of sentence_aware_splitter, lines 27 to 44 of
text_splitters.py.  The arguments e and c are end_sentence_idx and
chunk_token_count; rest is the list of token counts from index e on,
that is counts.drop e.  The chunk under construction is empty exactly
when e = start.  Returns the final end_sentence_idx and token count. -/
def chunkEndGo (numTokens start : Nat) : List Nat → Nat → Nat → Nat × Nat
  | [], e, c => (e, c)
  | cnt :: rest, e, c =>
    if e = start ∧ numTokens < cnt then (e + 1, c + cnt)
    else if numTokens < c + cnt then (e, c)
    else chunkEndGo numTokens start rest (e + 1) (c + cnt)

/-- Runs the inner greedy loop from sentence index start with an empty
chunk, as the outer loop of the source does at each iteration. -/
def chunkEnd (counts : List Nat) (numTokens start : Nat) : Nat × Nat :=
  chunkEndGo numTokens start (counts.drop start) start 0

/-- Backward overlap walk of sentence_aware_splitter, lines 55 to 62 of
text_splitters.py: while j > start and the accumulated overlap ov is
below tokenOverlap, add the token count at index j and step back. -/
def overlapWalk (counts : List Nat) (tokenOverlap start : Nat) : Nat → Nat → Nat
  | 0, _ => 0
  | j + 1, ov =>
    if start < j + 1 ∧ ov < tokenOverlap then
      overlapWalk counts tokenOverlap start j (ov + counts.getD (j + 1) 0)
    else j + 1

/-- Outer while loop of sentence_aware_splitter, lines 20 to 66 of
text_splitters.py, producing the chunk spans: the pair (s, e) stands for
the chunk made of the sentences with indices s, ..., e - 1.  The loop is
embedded with explicit fuel; one unit of fuel per loop iteration.  Since
every iteration advances the cursor by at least one sentence, fuel
counts.length suffices, and the wrapper below supplies it. -/
def splitterLoop (counts : List Nat) (numTokens tokenOverlap : Nat) :
    Nat → Nat → List (Nat × Nat)
  | 0, _ => []
  | fuel + 1, start =>
    if start < counts.length then
      let e := (chunkEnd counts numTokens start).1
      if counts.length ≤ e then [(start, e)]
      else
        (start, e) ::
          splitterLoop counts numTokens tokenOverlap fuel
            (max (overlapWalk counts tokenOverlap start (e - 1) 0 + 1) (start + 1))
    else []

/-- Chunk spans produced by sentence_aware_splitter on a text whose
sentence token counts are the given list. -/
def splitterSpans (counts : List Nat) (numTokens tokenOverlap : Nat) : List (Nat × Nat) :=
  splitterLoop counts numTokens tokenOverlap counts.length 0

/-- Sentence texts of the chunk with span p, in order. -/
def chunkSlice (sd : List (String × Nat)) (p : Nat × Nat) : List String :=
  ((sd.map Prod.fst).drop p.1).take (p.2 - p.1)

/-- Embedding of sentence_aware_splitter, lines 6 to 68 of
text_splitters.py, over the segmenter output sd (sentence texts with
their token counts).  A ValueError of the source is an error result. -/
def sentence_aware_splitter (sd : List (String × Nat)) (numTokens tokenOverlap : Nat) :
    Except String (List String) :=
  if numTokens ≤ tokenOverlap then
    Except.error "num_tokens must be greater than token_overlap"
  else if sd.isEmpty then Except.ok []
  else
    Except.ok ((splitterSpans (sd.map Prod.snd) numTokens tokenOverlap).map
      (fun p => String.intercalate " " (chunkSlice sd p)))

/-- Total token count of the sentences with indices s, ..., e - 1. -/
def sumRange (counts : List Nat) (s e : Nat) : Nat :=
  ((counts.drop s).take (e - s)).sum

/-- Relation between one chunk span and the next one, stating lines 53 to 66
of text_splitters.py: the next start is the backward walk position plus one,
forced past the current start; it is strictly beyond the current start; and
the sentences shared with the previous chunk carry at least tokenOverlap
tokens unless the forced one sentence advance clipped the overlap. -/
def nextStartRel (counts : List Nat) (tokenOverlap : Nat) (a b : Nat × Nat) : Prop :=
  b.1 = max (overlapWalk counts tokenOverlap a.1 (a.2 - 1) 0 + 1) (a.1 + 1) ∧
    a.1 < b.1 ∧ (tokenOverlap ≤ sumRange counts b.1 a.2 ∨ b.1 = a.1 + 1)

variable {E : Type}

/-- Entry of the chroma vector index, as written by lines 69 to 74 of
parent_child_ingester.py: the content hash id, the embedding vector (of an
abstract type, since the embedding model is external), the metadata fields
parent_id and chunk_index, and the document text. -/
structure IndexEntry (E : Type) where
  id : String
  embedding : E
  parent_id : String
  chunk_index : Nat
  document : String
deriving DecidableEq

/-- State of a ParentChildIngester: the parent_doc_store dictionary (an
association list with python dict update semantics) and the chroma
collection.  The external chroma index is modelled as a list of entries
keyed by id with upsert-by-id semantics, the contract the spec assigns
to the external vector index. -/
structure IngesterState (E : Type) where
  parent_doc_store : List (String × String)
  chroma_collection : List (IndexEntry E)
deriving DecidableEq

/-- Python dict assignment d[k] = v: an existing key keeps its position and
gets the new value, a new key is appended. -/
def dictInsert (d : List (String × String)) (k v : String) : List (String × String) :=
  if d.any (fun p => p.1 == k) then d.map (fun p => if p.1 == k then (k, v) else p)
  else d ++ [(k, v)]

/-- Lines 44 and 45 of parent_child_ingester.py: store a chunk under its
content hash.  The SHA-256 hex digest over the UTF-8 text is an external
capability, taken as the function parameter hash. -/
def putParent (hash : String → String) (d : List (String × String))
    (chunk : String) : List (String × String) :=
  dictInsert d (hash chunk) chunk

/-- Embedding of _ingest_parent_docs, lines 33 to 45 of
parent_child_ingester.py.  The segmenter is the external capability turning
a text into sentence data for sentence_aware_splitter. -/
def ingest_parent_docs (hash : String → String)
    (segment : String → List (String × Nat)) (st : IngesterState E) (text : String)
    (parent_num_tokens parent_token_overlap : Nat) : Except String (IngesterState E) :=
  (sentence_aware_splitter (segment text) parent_num_tokens parent_token_overlap).map
    (fun parent_chunks =>
      { st with parent_doc_store :=
          parent_chunks.foldl (putParent hash) st.parent_doc_store })

/-- Write of one entry into the external vector index, with the
upsert-by-id semantics the spec requires of it: an existing id is
replaced in place, a new id is appended. -/
def chromaAdd (coll : List (IndexEntry E)) (entry : IndexEntry E) :
    List (IndexEntry E) :=
  if coll.any (fun x => x.id == entry.id) then
    coll.map (fun x => if x.id == entry.id then entry else x)
  else coll ++ [entry]

/-- Index entry built for one child chunk by lines 64 to 74 of
parent_child_ingester.py. -/
def childEntry (hash : String → String) (embed : String → E) (parent_id : String)
    (i : Nat) (chunk : String) : IndexEntry E :=
  { id := hash chunk, embedding := embed chunk, parent_id := parent_id,
    chunk_index := i, document := chunk }

/-- Body of the outer loop of _ingest_child_docs, lines 60 to 74 of
parent_child_ingester.py, for one parent store item: split the parent chunk
at child granularity and write every child chunk into the index. -/
def ingestChildStep (hash : String → String)
    (segment : String → List (String × Nat)) (embed : String → E)
    (child_num_tokens child_token_overlap : Nat) (coll : List (IndexEntry E))
    (pc : String × String) : Except String (List (IndexEntry E)) :=
  (sentence_aware_splitter (segment pc.2) child_num_tokens child_token_overlap).map
    (fun child_chunks =>
      child_chunks.enum.foldl
        (fun coll ic => chromaAdd coll (childEntry hash embed pc.1 ic.1 ic.2)) coll)

/-- Embedding of _ingest_child_docs, lines 47 to 74 of
parent_child_ingester.py.  A raised ValueError is an error result. -/
def ingest_child_docs (hash : String → String)
    (segment : String → List (String × Nat)) (embed : String → E)
    (st : IngesterState E) (child_num_tokens child_token_overlap : Nat) :
    Except String (IngesterState E) :=
  if st.parent_doc_store.length = 0 then Except.error "Parent Chunks were not created."
  else
    (st.parent_doc_store.foldlM
        (ingestChildStep hash segment embed child_num_tokens child_token_overlap)
        st.chroma_collection).map
      (fun coll => { st with chroma_collection := coll })

/-- Python set add, modelled on a duplicate free list: inserting a present
element is a no-op, a new element is appended. -/
def setInsert (s : List String) (x : String) : List String :=
  if x ∈ s then s else s ++ [x]

/-- Body of the metadata loop of lines 93 to 96 of
parent_child_ingester.py: a metadata carrying a parent_id field adds it to
the id set, any other metadata is ignored. -/
def collectStep (acc : List String) (metadata : List (String × String)) : List String :=
  match metadata.lookup "parent_id" with
  | some pid => setInsert acc pid
  | none => acc

/-- Lines 91 to 96 of parent_child_ingester.py: collect the distinct
parent_id values of the returned hit metadatas.  The argument is the
metadatas field of the external index query result: one metadata list per
query embedding, each metadata an association list of fields. -/
def collectParentIds (metadatas : List (List (List (String × String)))) : List String :=
  metadatas.foldl
    (fun acc metadata_lists => metadata_lists.foldl collectStep acc) []

/-- Body of the parent id loop of lines 100 to 102 of
parent_child_ingester.py: an id found in the parent store contributes its
text, an id not found is skipped. -/
def retrieveStep (d : List (String × String)) (docs : List String) (pid : String) :
    List String :=
  match d.lookup pid with
  | some doc => docs ++ [doc]
  | none => docs

/-- Embedding of _retrieve_docs, lines 76 to 104 of
parent_child_ingester.py, downstream of the external embedding and index
query: the metadatas argument stands for the metadatas field of the query
result. -/
def retrieve_docs (st : IngesterState E)
    (metadatas : List (List (List (String × String)))) : List String :=
  (collectParentIds metadatas).foldl (retrieveStep st.parent_doc_store) []

/-- Number of returned hits whose metadata carries the given parent_id. -/
def hitCount (metadatas : List (List (List (String × String)))) (pid : String) : Nat :=
  (metadatas.map
    (fun ml => (ml.filter (fun md => md.lookup "parent_id" == some pid)).length)).sum

/-- Sequence of index writes, as performed by the loops of
_ingest_child_docs. -/
def foldAdds (coll : List (IndexEntry E)) (L : List (IndexEntry E)) :
    List (IndexEntry E) :=
  L.foldl chromaAdd coll

/-- Last entry of a write sequence carrying the given id. -/
def lastWrite (L : List (IndexEntry E)) (k : String) : Option (IndexEntry E) :=
  (L.filter (fun e => e.id == k)).getLast?

/-- Result of replaying the write sequence L over an entry: the last write
with the same id wins, an untouched entry stays. -/
def substLast (L : List (IndexEntry E)) (x : IndexEntry E) : IndexEntry E :=
  (lastWrite L x.id).getD x

/-- State of a freshly constructed ParentChildIngester: empty parent store,
empty collection (lines 28 to 31 of parent_child_ingester.py). -/
def ingesterInit (E : Type) : IngesterState E :=
  { parent_doc_store := [], chroma_collection := [] }

/-- Any finite sequence of _ingest_parent_docs calls, each with its own
text and chunking parameters. -/
def runParentIngests (hash : String → String)
    (segment : String → List (String × Nat)) (st : IngesterState E)
    (calls : List (String × Nat × Nat)) : Except String (IngesterState E) :=
  calls.foldlM (fun st c => ingest_parent_docs hash segment st c.1 c.2.1 c.2.2) st

theorem sumRange_self (counts : List Nat) (s : Nat) : sumRange counts s s = 0 := by
  simp [sumRange]

theorem sumRange_succ_right (counts : List Nat) (s e : Nat) (h1 : s ≤ e)
    (h2 : e < counts.length) :
    sumRange counts s (e + 1) = sumRange counts s e + counts.getD e 0 := by
  have h3 : e + 1 - s = (e - s) + 1 := by omega
  have h5 : (counts.drop s)[e - s]? = counts[e]? := by
    rw [List.getElem?_drop]; congr 1; omega
  rw [sumRange, sumRange, h3, List.take_succ, List.sum_append, h5,
    List.getElem?_eq_getElem h2, List.getD_eq_getElem?_getD,
    List.getElem?_eq_getElem h2]
  simp

theorem sumRange_cons (counts : List Nat) (s e : Nat) (h1 : s < e) (h2 : s < counts.length) :
    sumRange counts s e = counts.getD s 0 + sumRange counts (s + 1) e := by
  rw [sumRange, sumRange, List.drop_eq_getElem_cons h2]
  have h3 : e - s = (e - (s + 1)) + 1 := by omega
  rw [h3, List.take_succ_cons, List.sum_cons, List.getD_eq_getElem?_getD,
    List.getElem?_eq_getElem h2]
  simp

theorem drop_cons_length {counts : List Nat} {e cnt : Nat} {rest : List Nat}
    (h : counts.drop e = cnt :: rest) : e < counts.length := by
  by_contra hc
  rw [List.drop_eq_nil_of_le (by omega)] at h
  exact List.noConfusion h

theorem drop_cons_getD {counts : List Nat} {e cnt : Nat} {rest : List Nat}
    (h : counts.drop e = cnt :: rest) : counts.getD e 0 = cnt := by
  have h1 : (counts.drop e)[0]? = counts[e]? := by
    rw [List.getElem?_drop, Nat.add_zero]
  rw [h] at h1
  simp only [List.getElem?_cons_zero] at h1
  rw [List.getD_eq_getElem?_getD, ← h1]
  rfl

theorem drop_cons_tail {counts : List Nat} {e cnt : Nat} {rest : List Nat}
    (h : counts.drop e = cnt :: rest) : counts.drop (e + 1) = rest := by
  have h1 : counts.drop (e + 1) = (counts.drop e).drop 1 := by
    rw [List.drop_drop]
  rw [h1, h]
  rfl

theorem chunkEndGo_fst_le (numTokens start : Nat) :
    ∀ (rest : List Nat) (e c : Nat), e ≤ (chunkEndGo numTokens start rest e c).1 := by
  intro rest
  induction rest with
  | nil => intro e c; simp [chunkEndGo]
  | cons cnt rest ih =>
    intro e c
    simp only [chunkEndGo]
    split
    · simp
    · split
      · simp
      · exact Nat.le_trans (Nat.le_succ e) (ih (e + 1) (c + cnt))

theorem chunkEndGo_spec (counts : List Nat) (numTokens start : Nat) :
    ∀ (rest : List Nat) (e c : Nat), counts.drop e = rest → start ≤ e →
      e ≤ counts.length → c = sumRange counts start e → c ≤ numTokens →
      (chunkEndGo numTokens start rest e c).1 ≤ counts.length ∧
        (chunkEndGo numTokens start rest e c).2 =
          sumRange counts start (chunkEndGo numTokens start rest e c).1 ∧
        ((chunkEndGo numTokens start rest e c).2 ≤ numTokens ∨
          ((chunkEndGo numTokens start rest e c).1 = start + 1 ∧
            numTokens < counts.getD start 0)) := by
  intro rest
  induction rest with
  | nil =>
    intro e c hdrop hse hel hsum hle
    simp only [chunkEndGo]
    exact ⟨hel, hsum, Or.inl hle⟩
  | cons cnt rest ih =>
    intro e c hdrop hse hel hsum hle
    have helt : e < counts.length := drop_cons_length hdrop
    have hgd : counts.getD e 0 = cnt := drop_cons_getD hdrop
    have htl : counts.drop (e + 1) = rest := drop_cons_tail hdrop
    simp only [chunkEndGo]
    by_cases h1 : e = start ∧ numTokens < cnt
    · rw [if_pos h1]
      obtain ⟨hes, hbig⟩ := h1
      subst hes
      have h0 : c = 0 := by rw [hsum, sumRange_self]
      refine ⟨by omega, ?_, Or.inr ⟨rfl, by rw [hgd]; exact hbig⟩⟩
      rw [sumRange_succ_right counts e e (Nat.le_refl e) helt, sumRange_self, hgd, h0]
    · rw [if_neg h1]
      by_cases h2 : numTokens < c + cnt
      · rw [if_pos h2]
        exact ⟨by omega, hsum, Or.inl hle⟩
      · rw [if_neg h2]
        apply ih (e + 1) (c + cnt) htl (by omega) (by omega)
        · rw [sumRange_succ_right counts start e hse helt, hgd, hsum]
        · omega

theorem chunkEnd_le_length (counts : List Nat) (numTokens start : Nat)
    (h : start ≤ counts.length) : (chunkEnd counts numTokens start).1 ≤ counts.length :=
  (chunkEndGo_spec counts numTokens start (counts.drop start) start 0 rfl
    (Nat.le_refl start) h (sumRange_self counts start).symm (Nat.zero_le _)).1

theorem chunkEnd_sum (counts : List Nat) (numTokens start : Nat)
    (h : start ≤ counts.length) :
    (chunkEnd counts numTokens start).2 =
      sumRange counts start (chunkEnd counts numTokens start).1 :=
  (chunkEndGo_spec counts numTokens start (counts.drop start) start 0 rfl
    (Nat.le_refl start) h (sumRange_self counts start).symm (Nat.zero_le _)).2.1

theorem chunkEnd_bound (counts : List Nat) (numTokens start : Nat)
    (h : start ≤ counts.length) :
    (chunkEnd counts numTokens start).2 ≤ numTokens ∨
      ((chunkEnd counts numTokens start).1 = start + 1 ∧
        numTokens < counts.getD start 0) :=
  (chunkEndGo_spec counts numTokens start (counts.drop start) start 0 rfl
    (Nat.le_refl start) h (sumRange_self counts start).symm (Nat.zero_le _)).2.2

theorem chunkEnd_succ_le (counts : List Nat) (numTokens start : Nat)
    (h : start < counts.length) :
    start + 1 ≤ (chunkEnd counts numTokens start).1 := by
  unfold chunkEnd
  rw [List.drop_eq_getElem_cons h]
  simp only [chunkEndGo]
  by_cases h1 : numTokens < counts[start]
  · rw [if_pos ⟨trivial, h1⟩]
  · rw [if_neg (fun hc => h1 hc.2), if_neg (by omega : ¬numTokens < 0 + counts[start])]
    exact chunkEndGo_fst_le numTokens start _ (start + 1) _

theorem chunkEndGo_oversized (counts : List Nat) (numTokens start : Nat) :
    ∀ (rest : List Nat) (e c : Nat), counts.drop e = rest → start ≤ e →
      ∀ j, e ≤ j → j < (chunkEndGo numTokens start rest e c).1 →
        numTokens < counts.getD j 0 →
        j = start ∧ (chunkEndGo numTokens start rest e c).1 = start + 1 := by
  intro rest
  induction rest with
  | nil =>
    intro e c hdrop hse j hej hlt hbig
    simp only [chunkEndGo] at hlt
    omega
  | cons cnt rest ih =>
    intro e c hdrop hse j hej hlt hbig
    have hgd : counts.getD e 0 = cnt := drop_cons_getD hdrop
    have htl : counts.drop (e + 1) = rest := drop_cons_tail hdrop
    simp only [chunkEndGo] at hlt ⊢
    by_cases h1 : e = start ∧ numTokens < cnt
    · rw [if_pos h1] at hlt ⊢
      exact ⟨by omega, by omega⟩
    · rw [if_neg h1] at hlt ⊢
      by_cases h2 : numTokens < c + cnt
      · rw [if_pos h2] at hlt ⊢
        omega
      · rw [if_neg h2] at hlt ⊢
        rcases Nat.eq_or_lt_of_le hej with heq | hlt2
        · subst heq
          rw [hgd] at hbig
          omega
        · exact ih (e + 1) (c + cnt) htl (by omega) j (by omega) hlt hbig

theorem overlapWalk_le (counts : List Nat) (o start : Nat) :
    ∀ (j ov : Nat), overlapWalk counts o start j ov ≤ j := by
  intro j
  induction j with
  | zero => intro ov; simp [overlapWalk]
  | succ j ih =>
    intro ov
    simp only [overlapWalk]
    split
    · exact Nat.le_trans (ih _) (by omega)
    · exact Nat.le_refl _

theorem overlapWalk_spec (counts : List Nat) (o start e : Nat) (he : e ≤ counts.length) :
    ∀ (j ov : Nat), start ≤ j → j < e → ov = sumRange counts (j + 1) e →
      start ≤ overlapWalk counts o start j ov ∧
        (o ≤ sumRange counts (overlapWalk counts o start j ov + 1) e ∨
          overlapWalk counts o start j ov = start) := by
  intro j
  induction j with
  | zero =>
    intro ov hsj hje hsum
    simp only [overlapWalk]
    exact ⟨by omega, Or.inr (by omega)⟩
  | succ j ih =>
    intro ov hsj hje hsum
    simp only [overlapWalk]
    split
    · rename_i hcond
      obtain ⟨hs, ho⟩ := hcond
      have hnew : ov + counts.getD (j + 1) 0 = sumRange counts (j + 1) e := by
        rw [sumRange_cons counts (j + 1) e hje (by omega)]
        omega
      exact ih (ov + counts.getD (j + 1) 0) (by omega) (by omega) hnew
    · rename_i hcond
      refine ⟨hsj, ?_⟩
      by_cases hso : start < j + 1
      · left
        have hov : o ≤ ov := by
          by_contra hc
          exact hcond ⟨hso, by omega⟩
        omega
      · right
        omega

theorem splitterLoop_mem (counts : List Nat) (numTokens tokenOverlap : Nat) :
    ∀ (fuel start : Nat), ∀ p ∈ splitterLoop counts numTokens tokenOverlap fuel start,
      start ≤ p.1 ∧ p.1 < counts.length ∧ p.2 = (chunkEnd counts numTokens p.1).1 := by
  intro fuel
  induction fuel with
  | zero => intro start p hp; simp [splitterLoop] at hp
  | succ fuel ih =>
    intro start p hp
    simp only [splitterLoop] at hp
    by_cases hs : start < counts.length
    · rw [if_pos hs] at hp
      by_cases hf : counts.length ≤ (chunkEnd counts numTokens start).1
      · rw [if_pos hf] at hp
        rw [List.mem_singleton] at hp
        subst hp
        exact ⟨Nat.le_refl _, hs, rfl⟩
      · rw [if_neg hf] at hp
        rcases List.mem_cons.mp hp with heq | hmem
        · subst heq
          exact ⟨Nat.le_refl _, hs, rfl⟩
        · have h2 := ih _ p hmem
          have h3 : start + 1 ≤
              max (overlapWalk counts tokenOverlap start
                ((chunkEnd counts numTokens start).1 - 1) 0 + 1) (start + 1) :=
            Nat.le_max_right _ _
          exact ⟨by omega, h2.2.1, h2.2.2⟩
    · rw [if_neg hs] at hp
      simp at hp

theorem splitterLoop_head (counts : List Nat) (numTokens tokenOverlap : Nat)
    (fuel start : Nat) (p : Nat × Nat)
    (h : (splitterLoop counts numTokens tokenOverlap fuel start).head? = some p) :
    p.1 = start := by
  cases fuel with
  | zero => simp [splitterLoop] at h
  | succ fuel =>
    simp only [splitterLoop] at h
    by_cases hs : start < counts.length
    · rw [if_pos hs] at h
      by_cases hf : counts.length ≤ (chunkEnd counts numTokens start).1
      · rw [if_pos hf] at h
        simp only [List.head?_cons, Option.some.injEq] at h
        rw [← h]
      · rw [if_neg hf] at h
        simp only [List.head?_cons, Option.some.injEq] at h
        rw [← h]
    · rw [if_neg hs] at h
      simp at h

theorem splitterLoop_covers (counts : List Nat) (numTokens tokenOverlap : Nat) :
    ∀ (fuel start : Nat), counts.length ≤ fuel + start →
      ∀ j, start ≤ j → j < counts.length →
        ∃ p ∈ splitterLoop counts numTokens tokenOverlap fuel start,
          p.1 ≤ j ∧ j < p.2 := by
  intro fuel
  induction fuel with
  | zero => intro start hfuel j hsj hj; omega
  | succ fuel ih =>
    intro start hfuel j hsj hj
    have hs : start < counts.length := by omega
    simp only [splitterLoop]
    rw [if_pos hs]
    by_cases hf : counts.length ≤ (chunkEnd counts numTokens start).1
    · rw [if_pos hf]
      exact ⟨(start, (chunkEnd counts numTokens start).1),
        List.mem_singleton.mpr rfl, hsj, by omega⟩
    · rw [if_neg hf]
      by_cases hje : j < (chunkEnd counts numTokens start).1
      · exact ⟨(start, (chunkEnd counts numTokens start).1),
          List.mem_cons_self _ _, hsj, hje⟩
      · have hsucc := chunkEnd_succ_le counts numTokens start hs
        have hwalk := overlapWalk_le counts tokenOverlap start
          ((chunkEnd counts numTokens start).1 - 1) 0
        have hmax : start + 1 ≤
            max (overlapWalk counts tokenOverlap start
              ((chunkEnd counts numTokens start).1 - 1) 0 + 1) (start + 1) :=
          Nat.le_max_right _ _
        have hne : max (overlapWalk counts tokenOverlap start
              ((chunkEnd counts numTokens start).1 - 1) 0 + 1) (start + 1) ≤
            (chunkEnd counts numTokens start).1 :=
          Nat.max_le.mpr ⟨by omega, by omega⟩
        obtain ⟨p, hp, hcov⟩ := ih
          (max (overlapWalk counts tokenOverlap start
            ((chunkEnd counts numTokens start).1 - 1) 0 + 1) (start + 1))
          (by omega) j (by omega) hj
        exact ⟨p, List.mem_cons_of_mem _ hp, hcov⟩

theorem splitterLoop_chain (counts : List Nat) (numTokens tokenOverlap : Nat) :
    ∀ (fuel start : Nat),
      List.Chain' (nextStartRel counts tokenOverlap)
        (splitterLoop counts numTokens tokenOverlap fuel start) := by
  intro fuel
  induction fuel with
  | zero => intro start; simp [splitterLoop]
  | succ fuel ih =>
    intro start
    simp only [splitterLoop]
    by_cases hs : start < counts.length
    · rw [if_pos hs]
      by_cases hf : counts.length ≤ (chunkEnd counts numTokens start).1
      · rw [if_pos hf]
        exact List.chain'_singleton _
      · rw [if_neg hf]
        apply List.chain'_cons'.mpr
        refine ⟨?_, ih _⟩
        intro b hb
        have hb1 := splitterLoop_head counts numTokens tokenOverlap fuel _ b hb
        have hsucc := chunkEnd_succ_le counts numTokens start hs
        have hlen : (chunkEnd counts numTokens start).1 ≤ counts.length :=
          chunkEnd_le_length counts numTokens start (by omega)
        have hsum0 : (0 : Nat) = sumRange counts
            (((chunkEnd counts numTokens start).1 - 1) + 1)
            (chunkEnd counts numTokens start).1 := by
          rw [Nat.sub_add_cancel (by omega), sumRange_self]
        have hspec := overlapWalk_spec counts tokenOverlap start
          (chunkEnd counts numTokens start).1 hlen
          ((chunkEnd counts numTokens start).1 - 1) 0 (by omega) (by omega) hsum0
        obtain ⟨hge, hdisj⟩ := hspec
        have hmaxeq : max (overlapWalk counts tokenOverlap start
              ((chunkEnd counts numTokens start).1 - 1) 0 + 1) (start + 1) =
            overlapWalk counts tokenOverlap start
              ((chunkEnd counts numTokens start).1 - 1) 0 + 1 :=
          Nat.max_eq_left (by omega)
        refine ⟨hb1, ?_, ?_⟩
        · rw [hb1]
          omega
        · rcases hdisj with ho | hstart
          · left
            rw [hb1, hmaxeq]
            exact ho
          · right
            rw [hb1, hmaxeq, hstart]
    · rw [if_neg hs]
      exact List.chain'_nil

theorem splitterSpans_ne_nil (counts : List Nat) (numTokens tokenOverlap : Nat)
    (h : counts ≠ []) : splitterSpans counts numTokens tokenOverlap ≠ [] := by
  unfold splitterSpans
  have hlen : 0 < counts.length := List.length_pos.mpr h
  cases hc : counts.length with
  | zero => omega
  | succ m =>
    simp only [splitterLoop]
    rw [if_pos hlen]
    by_cases hf : counts.length ≤ (chunkEnd counts numTokens 0).1
    · rw [if_pos hf]
      simp
    · rw [if_neg hf]
      simp

/-- Claim C1: for every num_tokens greater than token_overlap and every text
whose sentence segmentation sd is non empty, sentence_aware_splitter
terminates (it is a total function here, and the fuel of the embedded loop
is never exhausted, as witnessed by the returned ok value) and returns at
least one chunk, namely the joined chunk spans; and every loop iteration
advances the sentence cursor by at least one sentence: consecutive chunk
spans have strictly increasing start indices. -/
theorem c1_splitter_terminates_and_progresses (sd : List (String × Nat))
    (numTokens tokenOverlap : Nat) (h : tokenOverlap < numTokens) (hsd : sd ≠ []) :
    ∃ cs, sentence_aware_splitter sd numTokens tokenOverlap = Except.ok cs ∧
      1 ≤ cs.length ∧
      cs = (splitterSpans (sd.map Prod.snd) numTokens tokenOverlap).map
          (fun p => String.intercalate " " (chunkSlice sd p)) ∧
      List.Chain' (fun a b => a.1 + 1 ≤ b.1)
        (splitterSpans (sd.map Prod.snd) numTokens tokenOverlap) := by
  have hno : ¬numTokens ≤ tokenOverlap := by omega
  have hmapne : sd.map Prod.snd ≠ [] := by
    cases sd with
    | nil => exact absurd rfl hsd
    | cons a l => simp
  have hempty : ¬sd.isEmpty = true := by
    cases sd with
    | nil => exact absurd rfl hsd
    | cons a l => simp
  refine ⟨_, ?_, ?_, rfl, ?_⟩
  · unfold sentence_aware_splitter
    rw [if_neg hno, if_neg hempty]
  · rw [List.length_map]
    have := splitterSpans_ne_nil (sd.map Prod.snd) numTokens tokenOverlap hmapne
    have hpos := List.length_pos.mpr this
    omega
  · exact List.Chain'.imp (fun a b hr => hr.2.1)
      (splitterLoop_chain (sd.map Prod.snd) numTokens tokenOverlap _ 0)

/-- Witness for C1 at a concrete input. -/
theorem c1_witness :
    ∃ cs, sentence_aware_splitter [("A", 1), ("B", 3)] 2 1 = Except.ok cs ∧
      1 ≤ cs.length ∧
      cs = (splitterSpans ([("A", 1), ("B", 3)].map Prod.snd) 2 1).map
          (fun p => String.intercalate " " (chunkSlice [("A", 1), ("B", 3)] p)) ∧
      List.Chain' (fun a b => a.1 + 1 ≤ b.1)
        (splitterSpans ([("A", 1), ("B", 3)].map Prod.snd) 2 1) :=
  c1_splitter_terminates_and_progresses [("A", 1), ("B", 3)] 2 1 (by decide) (by simp)

/-- Claim C2: every chunk span produced on a valid input has total token
count at most num_tokens, except that a chunk may exceed num_tokens, and
then only when it is a single sentence whose own token count exceeds
num_tokens. -/
theorem c2_chunk_token_bound (counts : List Nat) (numTokens tokenOverlap : Nat)
    (h : tokenOverlap < numTokens) :
    ∀ p ∈ splitterSpans counts numTokens tokenOverlap,
      sumRange counts p.1 p.2 ≤ numTokens ∨
        (p.2 = p.1 + 1 ∧ numTokens < counts.getD p.1 0) := by
  intro p hp
  obtain ⟨hs, hlt, hend⟩ := splitterLoop_mem counts numTokens tokenOverlap _ 0 p hp
  have hb := chunkEnd_bound counts numTokens p.1 (by omega)
  have hsum := chunkEnd_sum counts numTokens p.1 (by omega)
  rw [hend, ← hsum]
  exact hb

/-- Witness for C2 at a concrete input. -/
theorem c2_witness :
    sumRange [3, 2, 4, 1] (0, 2).1 (0, 2).2 ≤ 5 ∨
      ((0, 2).2 = (0, 2).1 + 1 ∧ 5 < [3, 2, 4, 1].getD (0, 2).1 0) :=
  c2_chunk_token_bound [3, 2, 4, 1] 5 2 (by decide) (0, 2) (by decide)

/-- Claim C3: on a valid input every sentence index is covered by some
chunk span, so no sentence is dropped; and a sentence whose token count
exceeds num_tokens is emitted as its own chunk span. -/
theorem c3_coverage_and_oversized (counts : List Nat) (numTokens tokenOverlap : Nat)
    (h : tokenOverlap < numTokens) :
    (∀ j, j < counts.length →
        ∃ p ∈ splitterSpans counts numTokens tokenOverlap, p.1 ≤ j ∧ j < p.2) ∧
      (∀ j, j < counts.length → numTokens < counts.getD j 0 →
        (j, j + 1) ∈ splitterSpans counts numTokens tokenOverlap) := by
  constructor
  · intro j hj
    exact splitterLoop_covers counts numTokens tokenOverlap counts.length 0
      (by omega) j (Nat.zero_le j) hj
  · intro j hj hbig
    obtain ⟨p, hp, hpj1, hpj2⟩ := splitterLoop_covers counts numTokens tokenOverlap
      counts.length 0 (by omega) j (Nat.zero_le j) hj
    obtain ⟨hs, hlt, hend⟩ := splitterLoop_mem counts numTokens tokenOverlap _ 0 p hp
    have hpj2c : j < (chunkEnd counts numTokens p.1).1 := by rw [← hend]; exact hpj2
    have hov := chunkEndGo_oversized counts numTokens p.1 (counts.drop p.1) p.1 0 rfl
      (Nat.le_refl p.1) j hpj1 hpj2c hbig
    obtain ⟨hj1, hj2⟩ := hov
    have hp2 : p.2 = p.1 + 1 := by
      rw [hend]
      exact hj2
    have hpeq : p = (j, j + 1) := by
      obtain ⟨p1, p2⟩ := p
      simp only at hp2 hj1 ⊢
      simp only [Prod.mk.injEq]
      omega
    rw [← hpeq]
    exact hp

/-- Witness for C3 at a concrete input. -/
theorem c3_witness :
    (∀ j, j < ([3, 2, 4, 1] : List Nat).length →
        ∃ p ∈ splitterSpans [3, 2, 4, 1] 5 2, p.1 ≤ j ∧ j < p.2) ∧
      (∀ j, j < ([3, 2, 4, 1] : List Nat).length → 5 < [3, 2, 4, 1].getD j 0 →
        (j, j + 1) ∈ splitterSpans [3, 2, 4, 1] 5 2) :=
  c3_coverage_and_oversized [3, 2, 4, 1] 5 2 (by decide)

/-- Claim C4: between every non final chunk span and the next one, the next
start index is the backward overlap walk position plus one, forced past the
current start; it is strictly beyond the current start; and the shared
sentences carry at least token_overlap tokens unless the forced one
sentence advance clipped the overlap (the nextStartRel relation). -/
theorem c4_overlap_start (counts : List Nat) (numTokens tokenOverlap : Nat)
    (h : tokenOverlap < numTokens) :
    List.Chain' (nextStartRel counts tokenOverlap)
      (splitterSpans counts numTokens tokenOverlap) :=
  splitterLoop_chain counts numTokens tokenOverlap counts.length 0

/-- Witness for C4 at a concrete input. -/
theorem c4_witness :
    List.Chain' (nextStartRel [3, 2, 4, 1] 2) (splitterSpans [3, 2, 4, 1] 5 2) :=
  c4_overlap_start [3, 2, 4, 1] 5 2 (by decide)

theorem exceptMap_ok {ε α β : Type} (f : α → β) (x : Except ε α) (b : β)
    (h : x.map f = Except.ok b) : ∃ a, x = Except.ok a ∧ b = f a := by
  cases x with
  | error e => simp [Except.map] at h
  | ok a =>
    simp [Except.map] at h
    exact ⟨a, rfl, h.symm⟩

theorem dictInsert_idem (d : List (String × String)) (k v : String) :
    dictInsert (dictInsert d k v) k v = dictInsert d k v := by
  unfold dictInsert
  by_cases hany : d.any (fun p => p.1 == k)
  · rw [if_pos hany]
    have hany2 : (d.map (fun p => if p.1 == k then (k, v) else p)).any
        (fun p => p.1 == k) = true := by
      rw [List.any_eq_true] at hany ⊢
      obtain ⟨p, hp, hpk⟩ := hany
      refine ⟨(k, v), ?_, by simp⟩
      rw [List.mem_map]
      exact ⟨p, hp, by rw [if_pos hpk]⟩
    rw [if_pos hany2, List.map_map]
    apply List.map_congr_left
    intro p hp
    simp only [Function.comp]
    by_cases hpk : p.1 == k
    · rw [if_pos hpk, if_pos (by simp)]
    · rw [if_neg hpk, if_neg hpk]
  · rw [if_neg hany]
    have hany2 : (d ++ [(k, v)]).any (fun p => p.1 == k) = true := by
      rw [List.any_eq_true]
      exact ⟨(k, v), List.mem_append_right _ (List.mem_singleton.mpr rfl), by simp⟩
    rw [if_pos hany2, List.map_append]
    have hd : d.map (fun p => if p.1 == k then (k, v) else p) = d := by
      conv_rhs => rw [← List.map_id d]
      apply List.map_congr_left
      intro p hp
      have hne : ¬(p.1 == k) = true := fun hc =>
        hany (List.any_eq_true.mpr ⟨p, hp, hc⟩)
      rw [if_neg hne]
      rfl
    rw [hd]
    simp

/-- Claim C8: putting a chunk text into the content addressed parent store
is idempotent: the id is the same hash both times, and storing the same
text a second time leaves the store contents, hence also its size,
unchanged. -/
theorem c8_put_idempotent (hash : String → String) (d : List (String × String))
    (t : String) :
    putParent hash (putParent hash d t) t = putParent hash d t ∧
      (putParent hash (putParent hash d t) t).length = (putParent hash d t).length := by
  have h := dictInsert_idem d (hash t) t
  exact ⟨h, congrArg List.length h⟩

/-- Claim C7: child ingestion on an empty parent store fails fast with the
ordering violation error of line 57 of parent_child_ingester.py, and no ok
state (hence no index write) is ever produced. -/
theorem c7_child_ingest_requires_parents (hash : String → String)
    (segment : String → List (String × Nat)) (embed : String → E)
    (st : IngesterState E) (child_num_tokens child_token_overlap : Nat)
    (h : st.parent_doc_store = []) :
    ingest_child_docs hash segment embed st child_num_tokens child_token_overlap =
        Except.error "Parent Chunks were not created." ∧
      ∀ st2, ingest_child_docs hash segment embed st child_num_tokens
          child_token_overlap ≠ Except.ok st2 := by
  have h0 : st.parent_doc_store.length = 0 := by rw [h]; rfl
  have he : ingest_child_docs hash segment embed st child_num_tokens
      child_token_overlap = Except.error "Parent Chunks were not created." := by
    unfold ingest_child_docs
    rw [if_pos h0]
  refine ⟨he, fun st2 hc => ?_⟩
  rw [he] at hc
  exact Except.noConfusion hc

/-- Witness for C7 at a concrete input. -/
theorem c7_witness :
    ingest_child_docs id (fun s => [(s, 1)]) (fun _ => ()) (ingesterInit Unit) 5 2 =
        Except.error "Parent Chunks were not created." ∧
      ∀ st2, ingest_child_docs id (fun s => [(s, 1)]) (fun _ => ())
          (ingesterInit Unit) 5 2 ≠ Except.ok st2 :=
  c7_child_ingest_requires_parents id (fun s => [(s, 1)]) (fun _ => ())
    (ingesterInit Unit) 5 2 rfl

theorem dictInsert_wf (hash : String → String) (d : List (String × String)) (t : String)
    (hwf : ∀ kv ∈ d, kv.1 = hash kv.2) :
    ∀ kv ∈ dictInsert d (hash t) t, kv.1 = hash kv.2 := by
  intro kv hkv
  unfold dictInsert at hkv
  by_cases hany : d.any (fun p => p.1 == hash t)
  · rw [if_pos hany] at hkv
    rw [List.mem_map] at hkv
    obtain ⟨p, hp, hpe⟩ := hkv
    by_cases hpk : p.1 == hash t
    · rw [if_pos hpk] at hpe
      rw [← hpe]
    · rw [if_neg hpk] at hpe
      rw [← hpe]
      exact hwf p hp
  · rw [if_neg hany] at hkv
    rcases List.mem_append.mp hkv with hin | hin
    · exact hwf kv hin
    · rw [List.mem_singleton] at hin
      rw [hin]

theorem dictInsert_mem_preserved (hash : String → String) (d : List (String × String))
    (t : String) (hinj : Function.Injective hash)
    (hwf : ∀ kv ∈ d, kv.1 = hash kv.2) :
    ∀ kv ∈ d, kv ∈ dictInsert d (hash t) t := by
  intro kv hkv
  unfold dictInsert
  by_cases hany : d.any (fun p => p.1 == hash t)
  · rw [if_pos hany]
    rw [List.mem_map]
    refine ⟨kv, hkv, ?_⟩
    by_cases hk : kv.1 == hash t
    · rw [if_pos hk]
      have h1 := hwf kv hkv
      have h2 : kv.1 = hash t := by simpa using hk
      have h3 : kv.2 = t := hinj (by rw [← h1, h2])
      obtain ⟨a, b⟩ := kv
      simp only at h2 h3
      rw [h2, h3]
    · rw [if_neg hk]
  · rw [if_neg hany]
    exact List.mem_append_left _ hkv

theorem foldPut_wf (hash : String → String) :
    ∀ (chunks : List String) (d : List (String × String)),
      (∀ kv ∈ d, kv.1 = hash kv.2) →
      ∀ kv ∈ chunks.foldl (putParent hash) d, kv.1 = hash kv.2 := by
  intro chunks
  induction chunks with
  | nil => intro d hwf kv hkv; exact hwf kv hkv
  | cons c cs ih =>
    intro d hwf kv hkv
    exact ih (putParent hash d c) (dictInsert_wf hash d c hwf) kv hkv

theorem foldPut_mem (hash : String → String) (hinj : Function.Injective hash) :
    ∀ (chunks : List String) (d : List (String × String)),
      (∀ kv ∈ d, kv.1 = hash kv.2) →
      ∀ kv ∈ d, kv ∈ chunks.foldl (putParent hash) d := by
  intro chunks
  induction chunks with
  | nil => intro d hwf kv hkv; exact hkv
  | cons c cs ih =>
    intro d hwf kv hkv
    exact ih (putParent hash d c) (dictInsert_wf hash d c hwf) kv
      (dictInsert_mem_preserved hash d c hinj hwf kv hkv)

theorem ingest_parent_docs_ok (hash : String → String)
    (segment : String → List (String × Nat)) (st : IngesterState E) (text : String)
    (pnt pov : Nat) (st' : IngesterState E)
    (h : ingest_parent_docs hash segment st text pnt pov = Except.ok st') :
    ∃ chunks, sentence_aware_splitter (segment text) pnt pov = Except.ok chunks ∧
      st' = { st with
        parent_doc_store := chunks.foldl (putParent hash) st.parent_doc_store } := by
  unfold ingest_parent_docs at h
  obtain ⟨a, ha, hb⟩ := exceptMap_ok _ _ _ h
  exact ⟨a, ha, hb⟩

theorem runParentIngests_inv (hash : String → String)
    (segment : String → List (String × Nat)) (hinj : Function.Injective hash) :
    ∀ (calls : List (String × Nat × Nat)) (st st' : IngesterState E),
      (∀ kv ∈ st.parent_doc_store, kv.1 = hash kv.2) →
      runParentIngests hash segment st calls = Except.ok st' →
      (∀ kv ∈ st'.parent_doc_store, kv.1 = hash kv.2) ∧
        (∀ kv ∈ st.parent_doc_store, kv ∈ st'.parent_doc_store) := by
  intro calls
  induction calls with
  | nil =>
    intro st st' hwf h
    have heq : st' = st := by
      unfold runParentIngests at h
      rw [List.foldlM_nil] at h
      exact (Except.ok.inj h).symm
    subst heq
    exact ⟨hwf, fun kv hkv => hkv⟩
  | cons c cs ih =>
    intro st st' hwf h
    unfold runParentIngests at h
    rw [List.foldlM_cons] at h
    cases hstep : ingest_parent_docs hash segment st c.1 c.2.1 c.2.2 with
    | error e =>
      rw [hstep] at h
      simp [Bind.bind, Except.bind] at h
    | ok st1 =>
      rw [hstep] at h
      have h2 : runParentIngests hash segment st1 cs = Except.ok st' := by
        unfold runParentIngests
        simpa [Bind.bind, Except.bind] using h
      obtain ⟨chunks, hch, hst1⟩ := ingest_parent_docs_ok hash segment st c.1
        c.2.1 c.2.2 st1 hstep
      have hwf1 : ∀ kv ∈ st1.parent_doc_store, kv.1 = hash kv.2 := by
        rw [hst1]
        exact foldPut_wf hash chunks _ hwf
      obtain ⟨hwf2, hmono⟩ := ih st1 st' hwf1 h2
      refine ⟨hwf2, fun kv hkv => hmono kv ?_⟩
      rw [hst1]
      exact foldPut_mem hash hinj chunks _ hwf kv hkv

/-- Claim C9: after any sequence of _ingest_parent_docs calls starting from
a fresh ingester, every key of the parent store is the hash of the text
stored under it, and no later sequence of such calls removes or alters an
existing key to text binding.  The SHA-256 digest is the abstract function
hash, idealised as injective (collision resistance). -/
theorem c9_parent_store_invariant (hash : String → String)
    (segment : String → List (String × Nat)) (calls : List (String × Nat × Nat))
    (st : IngesterState E) (hinj : Function.Injective hash)
    (h : runParentIngests hash segment (ingesterInit E) calls = Except.ok st) :
    (∀ kv ∈ st.parent_doc_store, kv.1 = hash kv.2) ∧
      ∀ calls2 st2, runParentIngests hash segment st calls2 = Except.ok st2 →
        ∀ kv ∈ st.parent_doc_store, kv ∈ st2.parent_doc_store := by
  have hinit : ∀ kv ∈ (ingesterInit E).parent_doc_store, kv.1 = hash kv.2 := by
    intro kv hkv
    simp [ingesterInit] at hkv
  obtain ⟨hwf, _⟩ := runParentIngests_inv hash segment hinj calls _ st hinit h
  refine ⟨hwf, fun calls2 st2 h2 kv hkv => ?_⟩
  exact (runParentIngests_inv hash segment hinj calls2 st st2 hwf h2).2 kv hkv

/-- Witness for C9 at a concrete input. -/
theorem c9_witness :
    (∀ kv ∈ (⟨[("t", "t")], []⟩ : IngesterState Unit).parent_doc_store,
        kv.1 = id kv.2) ∧
      ∀ calls2 st2, runParentIngests id (fun s => [(s, 1)])
          (⟨[("t", "t")], []⟩ : IngesterState Unit) calls2 = Except.ok st2 →
        ∀ kv ∈ (⟨[("t", "t")], []⟩ : IngesterState Unit).parent_doc_store,
          kv ∈ st2.parent_doc_store :=
  c9_parent_store_invariant id (fun s => [(s, 1)]) [("t", 5, 2)]
    ⟨[("t", "t")], []⟩ Function.injective_id rfl

theorem ingest_child_docs_ok_shape (hash : String → String)
    (segment : String → List (String × Nat)) (embed : String → E)
    (st : IngesterState E) (cnt cov : Nat) (st' : IngesterState E)
    (h : ingest_child_docs hash segment embed st cnt cov = Except.ok st') :
    ∃ coll, st.parent_doc_store.foldlM (ingestChildStep hash segment embed cnt cov)
        st.chroma_collection = Except.ok coll ∧
      st' = { st with chroma_collection := coll } := by
  unfold ingest_child_docs at h
  by_cases h0 : st.parent_doc_store.length = 0
  · rw [if_pos h0] at h
    exact Except.noConfusion h
  · rw [if_neg h0] at h
    obtain ⟨coll, hcoll, hst⟩ := exceptMap_ok _ _ _ h
    exact ⟨coll, hcoll, hst⟩

/-- Claim C10: child ingestion reads the parent store but leaves it
unchanged, and retrieval reads only the parent store and returns the same
result on any state with the same parent store; in this embedding
retrieval returns no state at all, so it writes neither the parent store
nor the vector index. -/
theorem c10_frame_conditions (hash : String → String)
    (segment : String → List (String × Nat)) (embed : String → E)
    (st st' st2 : IngesterState E) (cnt cov : Nat)
    (metadatas : List (List (List (String × String))))
    (h1 : ingest_child_docs hash segment embed st cnt cov = Except.ok st')
    (h2 : st2.parent_doc_store = st.parent_doc_store) :
    st'.parent_doc_store = st.parent_doc_store ∧
      retrieve_docs st2 metadatas = retrieve_docs st metadatas := by
  obtain ⟨coll, hcoll, hst⟩ := ingest_child_docs_ok_shape hash segment embed st cnt
    cov st' h1
  refine ⟨by rw [hst], ?_⟩
  unfold retrieve_docs
  rw [h2]

/-- Witness for C10 at a concrete input. -/
theorem c10_witness :
    (⟨[("t", "t")], [⟨"t", (), "t", 0, "t"⟩]⟩ : IngesterState Unit).parent_doc_store =
        (⟨[("t", "t")], []⟩ : IngesterState Unit).parent_doc_store ∧
      retrieve_docs (⟨[("t", "t")], [⟨"x", (), "y", 3, "z"⟩]⟩ : IngesterState Unit)
          [[[("parent_id", "t")]]] =
        retrieve_docs (⟨[("t", "t")], []⟩ : IngesterState Unit)
          [[[("parent_id", "t")]]] :=
  c10_frame_conditions id (fun s => [(s, 1)]) (fun _ => ())
    ⟨[("t", "t")], []⟩ ⟨[("t", "t")], [⟨"t", (), "t", 0, "t"⟩]⟩
    ⟨[("t", "t")], [⟨"x", (), "y", 3, "z"⟩]⟩ 5 2 [[[("parent_id", "t")]]] rfl rfl

theorem lookup_mem (l : List (String × String)) (k v : String)
    (h : l.lookup k = some v) : (k, v) ∈ l := by
  induction l with
  | nil => simp [List.lookup] at h
  | cons p l ih =>
    obtain ⟨pk, pv⟩ := p
    rw [List.lookup] at h
    cases hkk : k == pk with
    | true =>
      rw [hkk] at h
      simp only [Option.some.injEq] at h
      have hk : k = pk := by simpa using hkk
      rw [hk, h]
      exact List.mem_cons_self _ _
    | false =>
      rw [hkk] at h
      exact List.mem_cons_of_mem _ (ih h)

theorem setInsert_mem_self (s : List String) (x : String) : x ∈ setInsert s x := by
  unfold setInsert
  by_cases h : x ∈ s
  · rw [if_pos h]
    exact h
  · rw [if_neg h]
    exact List.mem_append_right _ (List.mem_singleton.mpr rfl)

theorem setInsert_mem_mono (s : List String) (x y : String) (h : y ∈ s) :
    y ∈ setInsert s x := by
  unfold setInsert
  split
  · exact h
  · exact List.mem_append_left _ h

theorem setInsert_nodup (s : List String) (x : String) (h : s.Nodup) :
    (setInsert s x).Nodup := by
  unfold setInsert
  split
  · exact h
  · rename_i hx
    rw [List.nodup_append]
    exact ⟨h, List.nodup_singleton x,
      fun a ha hb => hx (by rw [List.mem_singleton] at hb; rw [← hb]; exact ha)⟩

theorem setInsert_length (s : List String) (x : String) :
    (setInsert s x).length ≤ s.length + 1 := by
  unfold setInsert
  split
  · omega
  · simp

theorem collectStep_mem_mono (acc : List String) (md : List (String × String))
    (y : String) (h : y ∈ acc) : y ∈ collectStep acc md := by
  unfold collectStep
  cases md.lookup "parent_id" with
  | none => exact h
  | some pid => exact setInsert_mem_mono acc pid y h

theorem collectStep_nodup (acc : List String) (md : List (String × String))
    (h : acc.Nodup) : (collectStep acc md).Nodup := by
  unfold collectStep
  cases md.lookup "parent_id" with
  | none => exact h
  | some pid => exact setInsert_nodup acc pid h

theorem collectStep_length (acc : List String) (md : List (String × String)) :
    (collectStep acc md).length ≤ acc.length + 1 := by
  unfold collectStep
  cases md.lookup "parent_id" with
  | none => exact Nat.le_succ _
  | some pid => exact setInsert_length acc pid

theorem innerFold_mem_mono (ml : List (List (String × String))) :
    ∀ (acc : List String) (y : String), y ∈ acc → y ∈ ml.foldl collectStep acc := by
  induction ml with
  | nil => intro acc y h; exact h
  | cons md ml ih =>
    intro acc y h
    exact ih (collectStep acc md) y (collectStep_mem_mono acc md y h)

theorem innerFold_adds (ml : List (List (String × String)))
    (md : List (String × String)) (pid : String) (hm : md ∈ ml)
    (hl : md.lookup "parent_id" = some pid) :
    ∀ acc, pid ∈ ml.foldl collectStep acc := by
  induction ml with
  | nil => exact absurd hm (List.not_mem_nil md)
  | cons md0 ml ih =>
    intro acc
    rw [List.foldl_cons]
    rcases List.mem_cons.mp hm with heq | hmem
    · subst heq
      apply innerFold_mem_mono
      have hstep : collectStep acc md = setInsert acc pid := by
        unfold collectStep
        rw [hl]
      rw [hstep]
      exact setInsert_mem_self acc pid
    · exact ih hmem (collectStep acc md0)

theorem innerFold_nodup (ml : List (List (String × String))) :
    ∀ acc, acc.Nodup → (ml.foldl collectStep acc).Nodup := by
  induction ml with
  | nil => intro acc h; exact h
  | cons md ml ih =>
    intro acc h
    exact ih (collectStep acc md) (collectStep_nodup acc md h)

theorem innerFold_length (ml : List (List (String × String))) :
    ∀ acc, (ml.foldl collectStep acc).length ≤ acc.length + ml.length := by
  induction ml with
  | nil => intro acc; simp
  | cons md ml ih =>
    intro acc
    have h1 := ih (collectStep acc md)
    have h2 := collectStep_length acc md
    simp only [List.foldl_cons, List.length_cons]
    omega

theorem outerFold_mem_mono (metadatas : List (List (List (String × String)))) :
    ∀ (acc : List String) (y : String), y ∈ acc →
      y ∈ metadatas.foldl (fun acc ml => ml.foldl collectStep acc) acc := by
  induction metadatas with
  | nil => intro acc y h; exact h
  | cons ml metadatas ih =>
    intro acc y h
    exact ih (ml.foldl collectStep acc) y (innerFold_mem_mono ml acc y h)

theorem outerFold_adds (ml : List (List (String × String)))
    (md : List (String × String)) (pid : String) (h2 : md ∈ ml)
    (h3 : md.lookup "parent_id" = some pid) :
    ∀ (metadatas : List (List (List (String × String)))), ml ∈ metadatas →
      ∀ acc, pid ∈ metadatas.foldl (fun acc ml => ml.foldl collectStep acc) acc := by
  intro metadatas
  induction metadatas with
  | nil => intro h1; exact absurd h1 (List.not_mem_nil ml)
  | cons ml0 metadatas ih =>
    intro h1 acc
    rw [List.foldl_cons]
    rcases List.mem_cons.mp h1 with heq | hmem
    · subst heq
      apply outerFold_mem_mono
      exact innerFold_adds ml md pid h2 h3 acc
    · exact ih hmem (ml0.foldl collectStep acc)

theorem collect_mem_of_hit (metadatas : List (List (List (String × String))))
    (ml : List (List (String × String))) (md : List (String × String)) (pid : String)
    (h1 : ml ∈ metadatas) (h2 : md ∈ ml)
    (h3 : md.lookup "parent_id" = some pid) :
    pid ∈ collectParentIds metadatas := by
  unfold collectParentIds
  exact outerFold_adds ml md pid h2 h3 metadatas h1 []

theorem outerFold_nodup (metadatas : List (List (List (String × String)))) :
    ∀ (acc : List String), acc.Nodup →
      (metadatas.foldl (fun acc ml => ml.foldl collectStep acc) acc).Nodup := by
  induction metadatas with
  | nil => intro acc h; exact h
  | cons ml metadatas ih =>
    intro acc h
    rw [List.foldl_cons]
    exact ih (ml.foldl collectStep acc) (innerFold_nodup ml acc h)

theorem collect_nodup (metadatas : List (List (List (String × String)))) :
    (collectParentIds metadatas).Nodup := by
  unfold collectParentIds
  exact outerFold_nodup metadatas [] List.nodup_nil

theorem outerFold_length (metadatas : List (List (List (String × String)))) :
    ∀ (acc : List String),
      (metadatas.foldl (fun acc ml => ml.foldl collectStep acc) acc).length ≤
        acc.length + (metadatas.map List.length).sum := by
  induction metadatas with
  | nil => intro acc; simp
  | cons ml metadatas ih =>
    intro acc
    have h1 := ih (ml.foldl collectStep acc)
    have h2 := innerFold_length ml acc
    simp only [List.foldl_cons, List.map_cons, List.sum_cons]
    omega

theorem collect_length (metadatas : List (List (List (String × String)))) :
    (collectParentIds metadatas).length ≤ (metadatas.map List.length).sum := by
  unfold collectParentIds
  have h := outerFold_length metadatas []
  simpa using h

theorem retrieve_foldl_eq (d : List (String × String)) :
    ∀ (ids : List String) (acc : List String),
      ids.foldl (retrieveStep d) acc = acc ++ ids.filterMap (fun pid => d.lookup pid) := by
  intro ids
  induction ids with
  | nil => intro acc; simp
  | cons pid ids ih =>
    intro acc
    rw [List.foldl_cons, ih (retrieveStep d acc pid), List.filterMap_cons]
    unfold retrieveStep
    cases hlk : d.lookup pid with
    | none => rfl
    | some doc => rw [List.append_assoc]; rfl

theorem retrieve_docs_eq (st : IngesterState E)
    (metadatas : List (List (List (String × String)))) :
    retrieve_docs st metadatas =
      (collectParentIds metadatas).filterMap
        (fun pid => st.parent_doc_store.lookup pid) := by
  unfold retrieve_docs
  rw [retrieve_foldl_eq]
  rfl

theorem filterMap_lookup_count_one (f : String → Option String) (doc pid : String) :
    ∀ ids : List String, ids.Nodup → pid ∈ ids → f pid = some doc →
      (∀ q ∈ ids, f q = some doc → q = pid) →
      (ids.filterMap f).count doc = 1 := by
  intro ids
  induction ids with
  | nil => intro _ h; simp at h
  | cons q ids ih =>
    intro hnd hmem hf huniq
    rw [List.nodup_cons] at hnd
    rcases List.mem_cons.mp hmem with heq | hmem2
    · subst heq
      rw [List.filterMap_cons, hf]
      have hzero : (ids.filterMap f).count doc = 0 := by
        rw [List.count_eq_zero]
        intro hc
        rw [List.mem_filterMap] at hc
        obtain ⟨r, hr, hfr⟩ := hc
        have hre := huniq r (List.mem_cons_of_mem _ hr) hfr
        rw [hre] at hr
        exact hnd.1 hr
      rw [List.count_cons_self, hzero]
    · have hqne : q ≠ pid := fun hqp => hnd.1 (hqp ▸ hmem2)
      rw [List.filterMap_cons]
      cases hfq : f q with
      | none =>
        exact ih hnd.2 hmem2 hf (fun r hr => huniq r (List.mem_cons_of_mem _ hr))
      | some v =>
        have hvne : doc ≠ v := fun hv =>
          hqne (huniq q (List.mem_cons_self q ids) (by rw [hfq, ← hv]))
        rw [List.count_cons_of_ne hvne]
        exact ih hnd.2 hmem2 hf (fun r hr => huniq r (List.mem_cons_of_mem _ hr))

theorem lookup_doc_unique (hash : String → String) (d : List (String × String))
    (hwf : ∀ kv ∈ d, kv.1 = hash kv.2) (pid q doc : String)
    (h1 : d.lookup pid = some doc) (h2 : d.lookup q = some doc) : q = pid := by
  have m1 := lookup_mem d pid doc h1
  have m2 := lookup_mem d q doc h2
  have e1 := hwf _ m1
  have e2 := hwf _ m2
  simp only at e1 e2
  rw [e1, e2]

theorem hitCount_pos_exists (metadatas : List (List (List (String × String))))
    (pid : String) (h : 0 < hitCount metadatas pid) :
    ∃ ml ∈ metadatas, ∃ md ∈ ml, md.lookup "parent_id" = some pid := by
  unfold hitCount at h
  by_contra hc
  push_neg at hc
  have hall : ∀ x ∈ metadatas.map
      (fun ml => (ml.filter fun md => md.lookup "parent_id" == some pid).length),
      x = 0 := by
    intro x hx
    rw [List.mem_map] at hx
    obtain ⟨ml, hml, hxe⟩ := hx
    by_contra hx0
    have hlen : 0 < (ml.filter fun md => md.lookup "parent_id" == some pid).length := by
      omega
    have hne : (ml.filter fun md => md.lookup "parent_id" == some pid) ≠ [] := by
      intro hnil
      rw [hnil] at hlen
      simp at hlen
    obtain ⟨md, hmd⟩ := List.exists_mem_of_ne_nil _ hne
    rw [List.mem_filter] at hmd
    have hmdl : md.lookup "parent_id" = some pid := by simpa using hmd.2
    exact hc ml hml md hmd.1 hmdl
  have hsum := List.sum_eq_zero hall
  omega

/-- Claim C6: in the result of _retrieve_docs, a parent whose id is carried
by two or more returned child hits contributes its text exactly once; the
result length is bounded by the number of returned hits (ids not found in
the parent store are silently skipped, so fewer than the requested k
parent texts may come back); and every returned text comes from a
collected parent id found in the store. -/
theorem c6_retrieval_dedup (hash : String → String) (st : IngesterState E)
    (metadatas : List (List (List (String × String)))) (pid doc : String)
    (hwf : ∀ kv ∈ st.parent_doc_store, kv.1 = hash kv.2)
    (hhit : 2 ≤ hitCount metadatas pid)
    (hlk : st.parent_doc_store.lookup pid = some doc) :
    (retrieve_docs st metadatas).count doc = 1 ∧
      (retrieve_docs st metadatas).length ≤ (metadatas.map List.length).sum ∧
      ∀ d ∈ retrieve_docs st metadatas,
        ∃ q ∈ collectParentIds metadatas, st.parent_doc_store.lookup q = some d := by
  obtain ⟨ml, hml, md, hmd, hmdl⟩ := hitCount_pos_exists metadatas pid (by omega)
  have hpidmem : pid ∈ collectParentIds metadatas :=
    collect_mem_of_hit metadatas ml md pid hml hmd hmdl
  have hnd := collect_nodup metadatas
  rw [retrieve_docs_eq]
  refine ⟨?_, ?_, ?_⟩
  · apply filterMap_lookup_count_one _ doc pid _ hnd hpidmem hlk
    intro q hq hfq
    exact lookup_doc_unique hash _ hwf pid q doc hlk hfq
  · exact Nat.le_trans (List.length_filterMap_le _ _) (collect_length metadatas)
  · intro d hd
    rw [List.mem_filterMap] at hd
    obtain ⟨q, hq, hfq⟩ := hd
    exact ⟨q, hq, hfq⟩

/-- Witness for C6 at a concrete input. -/
theorem c6_witness :
    (retrieve_docs (⟨[("a", "a")], []⟩ : IngesterState Unit)
        [[[("parent_id", "a")], [("parent_id", "a")]]]).count "a" = 1 ∧
      (retrieve_docs (⟨[("a", "a")], []⟩ : IngesterState Unit)
          [[[("parent_id", "a")], [("parent_id", "a")]]]).length ≤
        (([[[("parent_id", "a")], [("parent_id", "a")]]] :
          List (List (List (String × String)))).map List.length).sum ∧
      ∀ d ∈ retrieve_docs (⟨[("a", "a")], []⟩ : IngesterState Unit)
          [[[("parent_id", "a")], [("parent_id", "a")]]],
        ∃ q ∈ collectParentIds [[[("parent_id", "a")], [("parent_id", "a")]]],
          (⟨[("a", "a")], []⟩ : IngesterState Unit).parent_doc_store.lookup q =
            some d :=
  c6_retrieval_dedup id (⟨[("a", "a")], []⟩ : IngesterState Unit)
    [[[("parent_id", "a")], [("parent_id", "a")]]] "a" "a"
    (by intro kv hkv; rw [List.mem_singleton] at hkv; rw [hkv]; rfl) (by decide) rfl

theorem getLast?_cons_ne_nil {α : Type} (a : α) (l : List α) (h : l ≠ []) :
    (a :: l).getLast? = l.getLast? := by
  cases l with
  | nil => exact absurd rfl h
  | cons b l => exact List.getLast?_cons_cons

theorem getLast?_cons_isSome {α : Type} (b : α) (l : List α) :
    ∃ m, (b :: l).getLast? = some m := by
  induction l generalizing b with
  | nil => exact ⟨b, by simp⟩
  | cons c l ih =>
    rw [List.getLast?_cons_cons]
    exact ih c

theorem mem_chromaAdd (C : List (IndexEntry E)) (a x : IndexEntry E)
    (h : x ∈ chromaAdd C a) : x = a ∨ x ∈ C := by
  unfold chromaAdd at h
  split at h
  · rw [List.mem_map] at h
    obtain ⟨y, hy, hyx⟩ := h
    by_cases hid : y.id == a.id
    · rw [if_pos hid] at hyx
      exact Or.inl hyx.symm
    · rw [if_neg hid] at hyx
      exact Or.inr (hyx ▸ hy)
  · rcases List.mem_append.mp h with h | h
    · exact Or.inr h
    · exact Or.inl (List.mem_singleton.mp h)

theorem chromaAdd_all_id_eq (C : List (IndexEntry E)) (a : IndexEntry E) :
    ∀ y ∈ chromaAdd C a, y.id = a.id → y = a := by
  intro y hy hid
  unfold chromaAdd at hy
  split at hy
  · rw [List.mem_map] at hy
    obtain ⟨z, hz, hzy⟩ := hy
    by_cases hzid : z.id == a.id
    · rw [if_pos hzid] at hzy
      exact hzy.symm
    · rw [if_neg hzid] at hzy
      exact absurd (by rw [hzy]; simp [hid]) hzid
  · rename_i hany
    rcases List.mem_append.mp hy with h | h
    · exact absurd (List.any_eq_true.mpr ⟨y, h, by simp [hid]⟩) hany
    · exact List.mem_singleton.mp h

theorem chromaAdd_mem_id (C : List (IndexEntry E)) (a : IndexEntry E) :
    ∃ y ∈ chromaAdd C a, y.id = a.id := by
  unfold chromaAdd
  split
  · rename_i hany
    rw [List.any_eq_true] at hany
    obtain ⟨x, hx, hxid⟩ := hany
    refine ⟨a, ?_, rfl⟩
    rw [List.mem_map]
    exact ⟨x, hx, by rw [if_pos hxid]⟩
  · exact ⟨a, List.mem_append_right _ (List.mem_singleton.mpr rfl), rfl⟩

theorem chromaAdd_mem_id_preserved (C : List (IndexEntry E)) (a : IndexEntry E)
    (k : String) (h : ∃ y ∈ C, y.id = k) : ∃ y ∈ chromaAdd C a, y.id = k := by
  obtain ⟨y, hy, hyk⟩ := h
  unfold chromaAdd
  split
  · by_cases hid : y.id == a.id
    · refine ⟨a, ?_, ?_⟩
      · rw [List.mem_map]
        exact ⟨y, hy, by rw [if_pos hid]⟩
      · have hya : y.id = a.id := by simpa using hid
        rw [← hya, hyk]
    · refine ⟨y, ?_, hyk⟩
      rw [List.mem_map]
      exact ⟨y, hy, by rw [if_neg hid]⟩
  · exact ⟨y, List.mem_append_left _ hy, hyk⟩

theorem foldAdds_mem_id_preserved (k : String) :
    ∀ (L C : List (IndexEntry E)),
      (∃ y ∈ C, y.id = k) → ∃ y ∈ foldAdds C L, y.id = k := by
  intro L
  induction L with
  | nil => intro C h; exact h
  | cons a L ih =>
    intro C h
    exact ih (chromaAdd C a) (chromaAdd_mem_id_preserved C a k h)

theorem foldAdds_ids_present :
    ∀ (L C : List (IndexEntry E)) (e : IndexEntry E), e ∈ L →
      ∃ y ∈ foldAdds C L, y.id = e.id := by
  intro L
  induction L with
  | nil => intro C e he; exact absurd he (List.not_mem_nil e)
  | cons a L ih =>
    intro C e he
    rcases List.mem_cons.mp he with heq | hmem
    · subst heq
      exact foldAdds_mem_id_preserved e.id L (chromaAdd C e) (chromaAdd_mem_id C e)
    · exact ih (chromaAdd C a) e hmem

theorem chromaAdd_of_id_present (C : List (IndexEntry E)) (a : IndexEntry E)
    (h : ∃ y ∈ C, y.id = a.id) :
    chromaAdd C a = C.map (fun x => if x.id == a.id then a else x) := by
  unfold chromaAdd
  obtain ⟨y, hy, hyid⟩ := h
  rw [if_pos (List.any_eq_true.mpr ⟨y, hy, by simp [hyid]⟩)]

theorem substLast_nil (x : IndexEntry E) : substLast [] x = x := rfl

theorem substLast_replace (L : List (IndexEntry E)) (a x : IndexEntry E) :
    substLast L (if x.id == a.id then a else x) = substLast (a :: L) x := by
  by_cases hid : x.id == a.id
  · rw [if_pos hid]
    have hxa : x.id = a.id := by simpa using hid
    unfold substLast lastWrite
    rw [List.filter_cons_of_pos (by simp [hxa]), hxa]
    cases hfl : L.filter (fun e => e.id == a.id) with
    | nil => simp
    | cons b l =>
      rw [getLast?_cons_ne_nil a _ (List.cons_ne_nil b l)]
      obtain ⟨m, hm⟩ := getLast?_cons_isSome b l
      rw [hm]
      rfl
  · rw [if_neg hid]
    have hxa : ¬x.id = a.id := fun hc => hid (by simp [hc])
    unfold substLast lastWrite
    rw [List.filter_cons_of_neg (by simp; exact fun hc => hxa hc.symm)]

theorem foldAdds_eq_map_substLast :
    ∀ (L C : List (IndexEntry E)),
      (∀ e ∈ L, ∃ y ∈ C, y.id = e.id) →
      foldAdds C L = C.map (substLast L) := by
  intro L
  induction L with
  | nil =>
    intro C h
    have hmap : C.map (substLast ([] : List (IndexEntry E))) = C := by
      conv_rhs => rw [← List.map_id C]
      apply List.map_congr_left
      intro x hx
      rw [substLast_nil]
      rfl
    rw [hmap]
    rfl
  | cons a L ih =>
    intro C h
    have hpres : ∃ y ∈ C, y.id = a.id := h a (List.mem_cons_self a L)
    have hstep : chromaAdd C a = C.map (fun x => if x.id == a.id then a else x) :=
      chromaAdd_of_id_present C a hpres
    have hids : ∀ e ∈ L, ∃ y ∈ chromaAdd C a, y.id = e.id := fun e he =>
      chromaAdd_mem_id_preserved C a e.id (h e (List.mem_cons_of_mem a he))
    have h1 : foldAdds C (a :: L) = foldAdds (chromaAdd C a) L := rfl
    rw [h1, ih (chromaAdd C a) hids, hstep, List.map_map]
    apply List.map_congr_left
    intro x hx
    simp only [Function.comp_apply]
    exact substLast_replace L a x

theorem foldAdds_all_id_eq (k : String) (v : IndexEntry E) :
    ∀ (L C : List (IndexEntry E)),
      (∀ y ∈ C, y.id = k → y = v) → (∀ e ∈ L, e.id ≠ k) →
      ∀ x ∈ foldAdds C L, x.id = k → x = v := by
  intro L
  induction L with
  | nil => intro C hC hL x hx; exact hC x hx
  | cons a L ih =>
    intro C hC hL x hx hxk
    have hC2 : ∀ y ∈ chromaAdd C a, y.id = k → y = v := by
      intro y hy hyk
      rcases mem_chromaAdd C a y hy with heq | hmem
      · exfalso
        apply hL a (List.mem_cons_self a L)
        rw [← hyk, heq]
      · exact hC y hmem hyk
    exact ih (chromaAdd C a) hC2 (fun e he => hL e (List.mem_cons_of_mem a he)) x hx hxk

theorem foldAdds_last_or_untouched :
    ∀ (L C : List (IndexEntry E)), ∀ x ∈ foldAdds C L,
      (∀ e ∈ L, e.id ≠ x.id) ∨ lastWrite L x.id = some x := by
  intro L
  induction L with
  | nil =>
    intro C x hx
    exact Or.inl (fun e he => absurd he (List.not_mem_nil e))
  | cons a L ih =>
    intro C x hx
    rcases ih (chromaAdd C a) x hx with hnone | hlast
    · by_cases hid : a.id = x.id
      · have hxa : x = a := foldAdds_all_id_eq a.id a L (chromaAdd C a)
          (chromaAdd_all_id_eq C a)
          (fun e he hc => hnone e he (by rw [hc, hid])) x hx hid.symm
        right
        unfold lastWrite
        rw [List.filter_cons_of_pos (by simp [hid])]
        have hfl : L.filter (fun e => e.id == x.id) = [] := by
          rw [List.filter_eq_nil_iff]
          intro e he
          simp
          exact hnone e he
        rw [hfl, hxa]
        simp
      · left
        intro e he
        rcases List.mem_cons.mp he with heq | hmem
        · rw [heq]
          exact hid
        · exact hnone e hmem
    · right
      unfold lastWrite at hlast ⊢
      by_cases hid : a.id = x.id
      · rw [List.filter_cons_of_pos (by simp [hid])]
        have hne : L.filter (fun e => e.id == x.id) ≠ [] := by
          intro hnil
          rw [hnil] at hlast
          simp at hlast
        rw [getLast?_cons_ne_nil a _ hne]
        exact hlast
      · rw [List.filter_cons_of_neg (by simp [hid])]
        exact hlast

theorem substLast_fix (L : List (IndexEntry E)) (x : IndexEntry E)
    (h : (∀ e ∈ L, e.id ≠ x.id) ∨ lastWrite L x.id = some x) : substLast L x = x := by
  unfold substLast
  rcases h with hnone | hlast
  · have hfl : lastWrite L x.id = none := by
      unfold lastWrite
      have : L.filter (fun e => e.id == x.id) = [] := by
        rw [List.filter_eq_nil_iff]
        intro e he
        simp
        exact hnone e he
      rw [this]
      rfl
    rw [hfl]
    rfl
  · rw [hlast]
    rfl

theorem foldAdds_idem (C L : List (IndexEntry E)) :
    foldAdds (foldAdds C L) L = foldAdds C L := by
  rw [foldAdds_eq_map_substLast L (foldAdds C L)
    (fun e he => foldAdds_ids_present L C e he)]
  conv_rhs => rw [← List.map_id (foldAdds C L)]
  apply List.map_congr_left
  intro x hx
  rw [substLast_fix L x (foldAdds_last_or_untouched L C x hx)]
  rfl

theorem ingestChildStep_ok (hash : String → String)
    (segment : String → List (String × Nat)) (embed : String → E) (cnt cov : Nat)
    (pc : String × String) (cc : List String)
    (hsp : sentence_aware_splitter (segment pc.2) cnt cov = Except.ok cc) :
    ∀ Cx : List (IndexEntry E),
      ingestChildStep hash segment embed cnt cov Cx pc =
        Except.ok (foldAdds Cx
          (cc.enum.map (fun ic => childEntry hash embed pc.1 ic.1 ic.2))) := by
  intro Cx
  unfold ingestChildStep
  rw [hsp]
  have hfold : cc.enum.foldl
      (fun coll ic => chromaAdd coll (childEntry hash embed pc.1 ic.1 ic.2)) Cx =
      foldAdds Cx (cc.enum.map (fun ic => childEntry hash embed pc.1 ic.1 ic.2)) := by
    unfold foldAdds
    rw [List.foldl_map]
  rw [← hfold]
  rfl

theorem foldlM_ingestChildStep_flat (hash : String → String)
    (segment : String → List (String × Nat)) (embed : String → E) (cnt cov : Nat) :
    ∀ (ps : List (String × String)) (C D : List (IndexEntry E)),
      ps.foldlM (ingestChildStep hash segment embed cnt cov) C = Except.ok D →
      ∃ M, D = foldAdds C M ∧
        ∀ C2, ps.foldlM (ingestChildStep hash segment embed cnt cov) C2 =
          Except.ok (foldAdds C2 M) := by
  intro ps
  induction ps with
  | nil =>
    intro C D h
    rw [List.foldlM_nil] at h
    refine ⟨[], (Except.ok.inj h).symm, ?_⟩
    intro C2
    rw [List.foldlM_nil]
    rfl
  | cons pc ps ih =>
    intro C D h
    rw [List.foldlM_cons] at h
    cases hsp : sentence_aware_splitter (segment pc.2) cnt cov with
    | error err =>
      have hstep : ingestChildStep hash segment embed cnt cov C pc =
          Except.error err := by
        unfold ingestChildStep
        rw [hsp]
        rfl
      rw [hstep] at h
      simp [Bind.bind, Except.bind] at h
    | ok cc =>
      have hstep := ingestChildStep_ok hash segment embed cnt cov pc cc hsp
      rw [hstep C] at h
      have h2 : ps.foldlM (ingestChildStep hash segment embed cnt cov)
          (foldAdds C (cc.enum.map (fun ic => childEntry hash embed pc.1 ic.1 ic.2))) =
          Except.ok D := by
        simpa [Bind.bind, Except.bind] using h
      obtain ⟨M, hD, hAll⟩ := ih _ D h2
      refine ⟨cc.enum.map (fun ic => childEntry hash embed pc.1 ic.1 ic.2) ++ M,
        ?_, ?_⟩
      · rw [hD]
        unfold foldAdds
        rw [List.foldl_append]
      · intro C2
        rw [List.foldlM_cons, hstep C2]
        have h3 := hAll
          (foldAdds C2 (cc.enum.map (fun ic => childEntry hash embed pc.1 ic.1 ic.2)))
        have h4 : foldAdds C2
            (cc.enum.map (fun ic => childEntry hash embed pc.1 ic.1 ic.2) ++ M) =
            foldAdds (foldAdds C2
              (cc.enum.map (fun ic => childEntry hash embed pc.1 ic.1 ic.2))) M := by
          unfold foldAdds
          rw [List.foldl_append]
        rw [h4]
        simpa [Bind.bind, Except.bind] using h3

/-- Claim C5: running child ingestion twice over the same parent store
contents, with the same chunking parameters, hash and embedding function,
leaves the vector index exactly as after running it once: the child ids
are content derived, and a write under an existing id replaces the entry
instead of appending a new one. -/
theorem c5_child_ingest_idempotent (hash : String → String)
    (segment : String → List (String × Nat)) (embed : String → E)
    (st st1 st2 : IngesterState E) (child_num_tokens child_token_overlap : Nat)
    (h1 : ingest_child_docs hash segment embed st child_num_tokens
        child_token_overlap = Except.ok st1)
    (h2 : ingest_child_docs hash segment embed st1 child_num_tokens
        child_token_overlap = Except.ok st2) :
    st2 = st1 := by
  obtain ⟨coll1, hc1, hs1⟩ := ingest_child_docs_ok_shape hash segment embed st
    child_num_tokens child_token_overlap st1 h1
  obtain ⟨coll2, hc2, hs2⟩ := ingest_child_docs_ok_shape hash segment embed st1
    child_num_tokens child_token_overlap st2 h2
  obtain ⟨M, hD1, hAll⟩ := foldlM_ingestChildStep_flat hash segment embed
    child_num_tokens child_token_overlap st.parent_doc_store st.chroma_collection
    coll1 hc1
  subst hs1
  have hc2x : st.parent_doc_store.foldlM
      (ingestChildStep hash segment embed child_num_tokens child_token_overlap)
      coll1 = Except.ok coll2 := hc2
  rw [hAll coll1] at hc2x
  have hcoll : coll2 = coll1 := by
    have he := Except.ok.inj hc2x
    rw [← he, hD1, foldAdds_idem]
  rw [hs2, hcoll]

/-- Witness for C5 at a concrete input. -/
theorem c5_witness :
    (⟨[("t", "t")], [⟨"t", (), "t", 0, "t"⟩]⟩ : IngesterState Unit) =
      ⟨[("t", "t")], [⟨"t", (), "t", 0, "t"⟩]⟩ :=
  c5_child_ingest_idempotent id (fun s => [(s, 1)]) (fun _ => ())
    ⟨[("t", "t")], []⟩ ⟨[("t", "t")], [⟨"t", (), "t", 0, "t"⟩]⟩
    ⟨[("t", "t")], [⟨"t", (), "t", 0, "t"⟩]⟩ 5 2 rfl rfl

